import Mathlib

/-!
Verification of `doc/src/remove-tt.py`: a utility that strips LaTeX
`\texttt{...}` markup from a text file, replacing each occurrence by its
captured inner content (regex `\\texttt\{([^\}]+)\}`, substituted by
`re.sub` with the replacement function returning group 1), reading the whole
input file and writing the whole result to the output file.

The text transformation is embedded over `List Char`; the regex `re.sub` scan
is embedded as a left-to-right scanner (`removeTT`) that at each position
tries to match the single concrete pattern (`matchTT`) and, on success, emits
the capture and resumes after the match, otherwise copies one character.
File I/O is embedded over an association-list file system (`runScript`).
-/

/-- The literal marker the regex starts with: the 8 characters of
the string backslash-t-e-x-t-t-t-openbrace (source line 6). -/
def ttMarker : List Char := ['\\', 't', 'e', 'x', 't', 't', 't', '\x7b']

/-- Scan for the next closing brace: `splitAtBrace t = some (cap, rest)`
when `t = cap ++ closebrace :: rest` with `cap` brace-free, `none` when `t`
has no closing brace.  This is the `([^\x7d]+)\x7d` part of the regex: the
greedy run of non-closing-brace characters ends exactly at the first closing
brace, which must exist for the pattern to match. -/
def splitAtBrace : List Char → Option (List Char × List Char)
  | [] => none
  | c :: cs =>
    if c = '\x7d' then some ([], cs)
    else
      match splitAtBrace cs with
      | some (cap, rest) => some (c :: cap, rest)
      | none => none

/-- Try the regex `\\texttt\x7b([^\x7d]+)\x7d` at the head of `s`
(source line 6, `tt_regex`): the marker must be a literal prefix, then at
least one non-brace character (`+`), then the closing brace.  Returns the
capture (group 1) and the text after the match. -/
def matchTT (s : List Char) : Option (List Char × List Char) :=
  if ttMarker.isPrefixOf s then
    match splitAtBrace (s.drop 8) with
    | some (cap, rest) => if cap.isEmpty then none else some (cap, rest)
    | none => none
  else none

/-- Fuel-indexed left-to-right substitution scan: at each position try the
pattern; on a match emit the capture (the replacement function `tt_replace`,
source lines 8-9, returns group 1) and resume after the match, otherwise copy
one character.  This is `tt_regex.sub(tt_replace, orig)` (source line 14);
fuel bounds the recursion and `s.length` fuel always suffices. -/
def removeTTFuel : Nat → List Char → List Char
  | 0, s => s
  | _ + 1, [] => []
  | fuel + 1, c :: cs =>
    match matchTT (c :: cs) with
    | some (cap, rest) => cap ++ removeTTFuel fuel rest
    | none => c :: removeTTFuel fuel cs

/-- The substitution `tt_regex.sub(tt_replace, orig)` of source line 14. -/
def removeTT (s : List Char) : List Char :=
  removeTTFuel s.length s

/-- Fuel-indexed count of matches replaced by the scan of `removeTTFuel`. -/
def countTTFuel : Nat → List Char → Nat
  | 0, _ => 0
  | _ + 1, [] => 0
  | fuel + 1, c :: cs =>
    match matchTT (c :: cs) with
    | some (_, rest) => countTTFuel fuel rest + 1
    | none => countTTFuel fuel cs

/-- Number of matches the substitution of source line 14 replaces. -/
def countTT (s : List Char) : Nat :=
  countTTFuel s.length s

/-- Whether the regex matches at some position of `t` (the text contains at
least one occurrence of the pattern). -/
def hasMatch : List Char → Bool
  | [] => false
  | c :: cs => (matchTT (c :: cs)).isSome || hasMatch cs

/-- Build an input text from pieces: each piece `(p, X)` contributes literal
text `p` followed by a marked-up span `\\texttt\x7b ++ X ++ \x7d`, and `s`
is the trailing text.  Statement scaffolding for the multi-match claims. -/
def buildText : List (List Char × List Char) → List Char → List Char
  | [], s => s
  | (p, X) :: ps, s => p ++ (ttMarker ++ (X ++ ('\x7d' :: buildText ps s)))

/-- The corresponding cleaned text: every span replaced by its capture. -/
def cleanText : List (List Char × List Char) → List Char → List Char
  | [], s => s
  | (p, X) :: ps, s => p ++ (X ++ cleanText ps s)

/-- The whole-file string transformation of source line 14. -/
def stripTT (s : String) : String :=
  ⟨removeTT s.data⟩

/-- A file-system operation performed by the script. -/
inductive FileOp where
  | read : String → FileOp
  | write : String → FileOp
deriving DecidableEq

/-- Look a file up in an association-list file system. -/
def lookupFile : List (String × String) → String → Option String
  | [], _ => none
  | (m, d) :: fs, n => if m = n then some d else lookupFile fs n

/-- Write a file: overwrite the existing binding (open mode w truncates) or
create the file when absent. -/
def writeFile : List (String × String) → String → String → List (String × String)
  | [], n, c => [(n, c)]
  | (m, d) :: fs, n, c => if m = n then (n, c) :: fs else (m, d) :: writeFile fs n c

/-- One run of the script (source lines 11-16): open and read the input file
(a missing input raises before anything is written, exiting non-zero), apply
the substitution, then open the output file for writing and write the result.
Returns the resulting file system, the trace of performed file operations,
and whether the process exited successfully. -/
def runScript (fs : List (String × String)) (inName outName : String) :
    List (String × String) × List FileOp × Bool :=
  match lookupFile fs inName with
  | none => (fs, [], false)
  | some orig =>
      (writeFile fs outName (stripTT orig), [FileOp.read inName, FileOp.write outName], true)

lemma splitAtBrace_of_not_mem :
    ∀ {X : List Char}, '\x7d' ∉ X → ∀ s, splitAtBrace (X ++ '\x7d' :: s) = some (X, s) := by
  intro X
  induction X with
  | nil => intro _ s; simp [splitAtBrace]
  | cons c cs ih =>
    intro h s
    have hc : c ≠ '\x7d' := fun hc => h (hc ▸ List.mem_cons_self c cs)
    have hcs : '\x7d' ∉ cs := fun hm => h (List.mem_cons_of_mem c hm)
    simp only [List.cons_append, splitAtBrace, if_neg hc, List.append_eq, ih hcs s]

lemma splitAtBrace_some_decomp :
    ∀ {t cap rest : List Char}, splitAtBrace t = some (cap, rest) →
      t = cap ++ '\x7d' :: rest ∧ '\x7d' ∉ cap := by
  intro t
  induction t with
  | nil => intro cap rest h; simp [splitAtBrace] at h
  | cons c cs ih =>
    intro cap rest h
    by_cases hc : c = '\x7d'
    · simp only [splitAtBrace, if_pos hc] at h
      obtain ⟨rfl, rfl⟩ := by simpa using h
      subst hc
      simp
    · simp only [splitAtBrace, if_neg hc] at h
      cases hsb : splitAtBrace cs with
      | none => rw [hsb] at h; cases h
      | some pr =>
        obtain ⟨cap', rest'⟩ := pr
        rw [hsb] at h
        obtain ⟨rfl, rfl⟩ : c :: cap' = cap ∧ rest' = rest := by simpa using h
        obtain ⟨hdec, hnm⟩ := ih hsb
        constructor
        · simp [hdec]
        · simp only [List.mem_cons, not_or]
          exact ⟨fun he => hc he.symm, hnm⟩

lemma splitAtBrace_none_of_not_mem : ∀ {t : List Char}, '\x7d' ∉ t → splitAtBrace t = none := by
  intro t
  induction t with
  | nil => intro _; rfl
  | cons c cs ih =>
    intro h
    have hc : c ≠ '\x7d' := fun hc => h (hc ▸ List.mem_cons_self c cs)
    have hcs : '\x7d' ∉ cs := fun hm => h (List.mem_cons_of_mem c hm)
    simp only [splitAtBrace, if_neg hc, ih hcs]

lemma isPrefixOf_append_self : ∀ (a t : List Char), a.isPrefixOf (a ++ t) = true := by
  intro a t
  induction a with
  | nil => simp [List.isPrefixOf]
  | cons x xs ih => simp [List.isPrefixOf, ih]

lemma eq_append_drop_of_isPrefixOf :
    ∀ (a s : List Char), a.isPrefixOf s = true → s = a ++ s.drop a.length := by
  intro a
  induction a with
  | nil => intro s _; simp
  | cons x xs ih =>
    intro s h
    cases s with
    | nil => simp [List.isPrefixOf] at h
    | cons b bs =>
      obtain ⟨rfl, htail⟩ : x = b ∧ xs.isPrefixOf bs = true := by
        simpa [List.isPrefixOf] using h
      simpa using ih bs htail

lemma matchTT_span {X : List Char} (hne : X ≠ []) (hnm : '\x7d' ∉ X) (s : List Char) :
    matchTT (ttMarker ++ (X ++ ('\x7d' :: s))) = some (X, s) := by
  have hdrop : (ttMarker ++ (X ++ ('\x7d' :: s))).drop 8 = X ++ ('\x7d' :: s) := by
    simp [ttMarker]
  have hemp : X.isEmpty = false := by
    cases X with
    | nil => exact absurd rfl hne
    | cons c cs => rfl
  rw [matchTT, if_pos (isPrefixOf_append_self _ _), hdrop, splitAtBrace_of_not_mem hnm s]
  show (if X.isEmpty = true then none else some (X, s)) = some (X, s)
  rw [hemp]
  rfl

lemma matchTT_some_decomp :
    ∀ {s cap rest : List Char}, matchTT s = some (cap, rest) →
      cap ≠ [] ∧ '\x7d' ∉ cap ∧ s = ttMarker ++ (cap ++ ('\x7d' :: rest)) := by
  intro s cap rest h
  rw [matchTT] at h
  by_cases hp : ttMarker.isPrefixOf s
  · rw [if_pos hp] at h
    cases hsb : splitAtBrace (s.drop 8) with
    | none => rw [hsb] at h; cases h
    | some pr =>
      obtain ⟨cap', rest'⟩ := pr
      rw [hsb] at h
      have h2 : (if cap'.isEmpty = true then (none : Option (List Char × List Char))
          else some (cap', rest')) = some (cap, rest) := h
      by_cases hc : cap'.isEmpty
      · rw [if_pos hc] at h2; cases h2
      · rw [if_neg hc] at h2
        obtain ⟨rfl, rfl⟩ : cap = cap' ∧ rest = rest' := by simpa using h2.symm
        obtain ⟨hdec, hnm⟩ := splitAtBrace_some_decomp hsb
        have hne : cap ≠ [] := by
          cases cap with
          | nil => exact absurd rfl hc
          | cons a as => exact List.cons_ne_nil a as
        have hs8 : s = ttMarker ++ s.drop 8 := by
          have := eq_append_drop_of_isPrefixOf _ _ hp
          simpa [ttMarker] using this
        exact ⟨hne, hnm, by rw [hs8, hdec]⟩
  · rw [if_neg hp] at h; cases h

lemma matchTT_length {s cap rest : List Char} (h : matchTT s = some (cap, rest)) :
    s.length = cap.length + rest.length + 9 := by
  obtain ⟨-, -, hdec⟩ := matchTT_some_decomp h
  subst hdec
  simp [ttMarker]
  omega

lemma removeTTFuel_congr :
    ∀ (n : Nat), ∀ {m : Nat} {s : List Char}, s.length ≤ n → s.length ≤ m →
      removeTTFuel n s = removeTTFuel m s := by
  intro n
  induction n with
  | zero =>
    intro m s hn _
    have hs : s = [] := List.length_eq_zero.mp (Nat.le_zero.mp hn)
    subst hs
    cases m <;> rfl
  | succ n ih =>
    intro m s hn hm
    cases s with
    | nil => cases m <;> rfl
    | cons c cs =>
      obtain ⟨m', rfl⟩ : ∃ m', m = m' + 1 := by
        cases m with
        | zero => simp at hm
        | succ k => exact ⟨k, rfl⟩
      simp only [removeTTFuel]
      cases hmt : matchTT (c :: cs) with
      | some pr =>
        obtain ⟨cap, rest⟩ := pr
        have hlen := matchTT_length hmt
        simp only [List.length_cons] at hn hm hlen
        have h1 : rest.length ≤ n := by omega
        have h2 : rest.length ≤ m' := by omega
        show cap ++ removeTTFuel n rest = cap ++ removeTTFuel m' rest
        rw [ih h1 h2]
      | none =>
        simp only [List.length_cons] at hn hm
        show c :: removeTTFuel n cs = c :: removeTTFuel m' cs
        rw [ih (show cs.length ≤ n by omega) (show cs.length ≤ m' by omega)]

lemma countTTFuel_congr :
    ∀ (n : Nat), ∀ {m : Nat} {s : List Char}, s.length ≤ n → s.length ≤ m →
      countTTFuel n s = countTTFuel m s := by
  intro n
  induction n with
  | zero =>
    intro m s hn _
    have hs : s = [] := List.length_eq_zero.mp (Nat.le_zero.mp hn)
    subst hs
    cases m <;> rfl
  | succ n ih =>
    intro m s hn hm
    cases s with
    | nil => cases m <;> rfl
    | cons c cs =>
      obtain ⟨m', rfl⟩ : ∃ m', m = m' + 1 := by
        cases m with
        | zero => simp at hm
        | succ k => exact ⟨k, rfl⟩
      simp only [countTTFuel]
      cases hmt : matchTT (c :: cs) with
      | some pr =>
        obtain ⟨cap, rest⟩ := pr
        have hlen := matchTT_length hmt
        simp only [List.length_cons] at hn hm hlen
        have h1 : rest.length ≤ n := by omega
        have h2 : rest.length ≤ m' := by omega
        show countTTFuel n rest + 1 = countTTFuel m' rest + 1
        rw [ih h1 h2]
      | none =>
        simp only [List.length_cons] at hn hm
        show countTTFuel n cs = countTTFuel m' cs
        rw [ih (show cs.length ≤ n by omega) (show cs.length ≤ m' by omega)]

lemma matchTT_nil : matchTT [] = none := by decide

lemma removeTT_nil : removeTT [] = [] := rfl

lemma removeTT_eq_some {s cap rest : List Char} (h : matchTT s = some (cap, rest)) :
    removeTT s = cap ++ removeTT rest := by
  cases s with
  | nil => rw [matchTT_nil] at h; cases h
  | cons c cs =>
    have hlen := matchTT_length h
    simp only [List.length_cons] at hlen
    rw [removeTT, List.length_cons, removeTTFuel, h]
    show cap ++ removeTTFuel cs.length rest = cap ++ removeTT rest
    rw [removeTT, removeTTFuel_congr cs.length (show rest.length ≤ cs.length by omega) (le_refl _)]

lemma removeTT_cons_none {c : Char} {cs : List Char} (h : matchTT (c :: cs) = none) :
    removeTT (c :: cs) = c :: removeTT cs := by
  rw [removeTT, List.length_cons, removeTTFuel, h, removeTT]

lemma countTT_eq_some {s cap rest : List Char} (h : matchTT s = some (cap, rest)) :
    countTT s = countTT rest + 1 := by
  cases s with
  | nil => rw [matchTT_nil] at h; cases h
  | cons c cs =>
    have hlen := matchTT_length h
    simp only [List.length_cons] at hlen
    rw [countTT, List.length_cons, countTTFuel, h]
    show countTTFuel cs.length rest + 1 = countTT rest + 1
    rw [countTT, countTTFuel_congr cs.length (show rest.length ≤ cs.length by omega) (le_refl _)]

lemma countTT_cons_none {c : Char} {cs : List Char} (h : matchTT (c :: cs) = none) :
    countTT (c :: cs) = countTT cs := by
  rw [countTT, List.length_cons, countTTFuel, h, countTT]

lemma hasMatch_cons (c : Char) (cs : List Char) :
    hasMatch (c :: cs) = ((matchTT (c :: cs)).isSome || hasMatch cs) := rfl

lemma removeTT_of_hasMatch_false : ∀ {t : List Char}, hasMatch t = false → removeTT t = t := by
  intro t
  induction t with
  | nil => intro _; rfl
  | cons c cs ih =>
    intro h
    rw [hasMatch_cons, Bool.or_eq_false_iff] at h
    obtain ⟨h1, h2⟩ := h
    cases hmt : matchTT (c :: cs) with
    | some pr => rw [hmt] at h1; cases h1
    | none => rw [removeTT_cons_none hmt, ih h2]

lemma matchTT_none_of_head {c : Char} (hc : c ≠ '\\') (l : List Char) :
    matchTT (c :: l) = none := by
  have hp : ttMarker.isPrefixOf (c :: l) = false := by
    simp only [ttMarker, List.isPrefixOf, Bool.and_eq_false_iff]
    left
    simpa using fun he => hc he.symm
  rw [matchTT, hp]
  simp

lemma removeTT_append_bsfree :
    ∀ {p : List Char}, '\\' ∉ p → ∀ t, removeTT (p ++ t) = p ++ removeTT t := by
  intro p
  induction p with
  | nil => intro _ t; simp
  | cons c cs ih =>
    intro h t
    have hc : c ≠ '\\' := fun hc => h (hc ▸ List.mem_cons_self c cs)
    have hcs : '\\' ∉ cs := fun hm => h (List.mem_cons_of_mem c hm)
    rw [List.cons_append, removeTT_cons_none (matchTT_none_of_head hc _), ih hcs t,
      List.cons_append]

lemma hasMatch_append_bsfree :
    ∀ {p : List Char}, '\\' ∉ p → ∀ t, hasMatch (p ++ t) = hasMatch t := by
  intro p
  induction p with
  | nil => intro _ t; simp
  | cons c cs ih =>
    intro h t
    have hc : c ≠ '\\' := fun hc => h (hc ▸ List.mem_cons_self c cs)
    have hcs : '\\' ∉ cs := fun hm => h (List.mem_cons_of_mem c hm)
    rw [List.cons_append, hasMatch_cons, matchTT_none_of_head hc _, ih hcs t]
    rfl

lemma removeTT_span {X : List Char} (hne : X ≠ []) (hnm : '\x7d' ∉ X) (s : List Char) :
    removeTT (ttMarker ++ (X ++ ('\x7d' :: s))) = X ++ removeTT s :=
  removeTT_eq_some (matchTT_span hne hnm s)

lemma matchTT_some_mem_brace {s : List Char} {pr : List Char × List Char}
    (h : matchTT s = some pr) : '\x7d' ∈ s := by
  obtain ⟨cap, rest⟩ := pr
  obtain ⟨-, -, hdec⟩ := matchTT_some_decomp h
  subst hdec
  simp

lemma hasMatch_false_of_no_brace : ∀ {t : List Char}, '\x7d' ∉ t → hasMatch t = false := by
  intro t
  induction t with
  | nil => intro _; rfl
  | cons c cs ih =>
    intro h
    have hcs : '\x7d' ∉ cs := fun hm => h (List.mem_cons_of_mem c hm)
    rw [hasMatch_cons, ih hcs, Bool.or_false]
    cases hmt : matchTT (c :: cs) with
    | some pr => exact absurd (matchTT_some_mem_brace hmt) h
    | none => rfl

lemma append_brace_split :
    ∀ {A : List Char}, '\x7d' ∉ A → ∀ {l v B : List Char}, '\x7d' ∉ v →
      l ++ v = A ++ '\x7d' :: B → ∃ B0, l = A ++ '\x7d' :: B0 ∧ B = B0 ++ v := by
  intro A
  induction A with
  | nil =>
    intro _ l v B hv h
    cases l with
    | nil =>
      simp only [List.nil_append] at h
      exact absurd (h ▸ List.mem_cons_self '\x7d' B) hv
    | cons c l' =>
      simp only [List.cons_append, List.nil_append, List.cons.injEq] at h
      obtain ⟨rfl, h2⟩ := h
      exact ⟨l', by simp, h2.symm⟩
  | cons a A' ih =>
    intro hA l v B hv h
    have hA' : '\x7d' ∉ A' := fun hm => hA (List.mem_cons_of_mem a hm)
    cases l with
    | nil =>
      simp only [List.nil_append, List.cons_append] at h
      subst h
      exact absurd (by simp : '\x7d' ∈ a :: (A' ++ '\x7d' :: B)) hv
    | cons c l' =>
      simp only [List.cons_append, List.cons.injEq] at h
      obtain ⟨rfl, h2⟩ := h
      obtain ⟨B0, hl, hB⟩ := ih hA' hv h2
      exact ⟨B0, by simp [hl], hB⟩

lemma ttMarker_no_brace : '\x7d' ∉ ttMarker := by decide

lemma matchTT_append_of_some {l cap r : List Char} (h : matchTT l = some (cap, r))
    (v : List Char) : matchTT (l ++ v) = some (cap, r ++ v) := by
  obtain ⟨hne, hnm, hdec⟩ := matchTT_some_decomp h
  subst hdec
  have := matchTT_span hne hnm (r ++ v)
  simpa using this

lemma matchTT_append_brfree {l v : List Char} (hv : '\x7d' ∉ v) {cap rest : List Char}
    (h : matchTT (l ++ v) = some (cap, rest)) :
    ∃ r, matchTT l = some (cap, r) ∧ rest = r ++ v := by
  obtain ⟨hne, hnm, hdec⟩ := matchTT_some_decomp h
  have hA : '\x7d' ∉ ttMarker ++ cap := by
    simp only [List.mem_append, not_or]
    exact ⟨ttMarker_no_brace, hnm⟩
  have hdec' : l ++ v = (ttMarker ++ cap) ++ '\x7d' :: rest := by
    rw [hdec]; simp
  obtain ⟨B0, hl, hB⟩ := append_brace_split hA hv hdec'
  refine ⟨B0, ?_, hB⟩
  have hl' : l = ttMarker ++ (cap ++ ('\x7d' :: B0)) := by rw [hl]; simp
  rw [hl']
  exact matchTT_span hne hnm B0

lemma removeTT_append_brfree :
    ∀ (n : Nat) {l v : List Char}, l.length ≤ n → '\x7d' ∉ v →
      removeTT (l ++ v) = removeTT l ++ v := by
  intro n
  induction n with
  | zero =>
    intro l v hn hv
    have hl : l = [] := List.length_eq_zero.mp (Nat.le_zero.mp hn)
    subst hl
    simp [removeTT_of_hasMatch_false (hasMatch_false_of_no_brace hv), removeTT_nil]
  | succ n ih =>
    intro l v hn hv
    cases l with
    | nil => simp [removeTT_of_hasMatch_false (hasMatch_false_of_no_brace hv), removeTT_nil]
    | cons c cs =>
      cases hmt : matchTT ((c :: cs) ++ v) with
      | some pr =>
        obtain ⟨cap, rest⟩ := pr
        obtain ⟨r, hr, rfl⟩ := matchTT_append_brfree hv hmt
        have hlen := matchTT_length hr
        simp only [List.length_cons] at hn hlen
        rw [removeTT_eq_some hmt, removeTT_eq_some hr,
          ih (show r.length ≤ n by omega) hv, List.append_assoc]
      | none =>
        have hcn : matchTT (c :: cs) = none := by
          cases h2 : matchTT (c :: cs) with
          | some pr =>
            obtain ⟨cap, r⟩ := pr
            rw [show (c :: cs) ++ v = c :: (cs ++ v) from rfl] at hmt
            rw [show matchTT (c :: (cs ++ v)) = some (cap, r ++ v) from
              matchTT_append_of_some h2 v] at hmt
            cases hmt
          | none => rfl
        rw [show (c :: cs) ++ v = c :: (cs ++ v) from rfl] at hmt ⊢
        simp only [List.length_cons] at hn
        rw [removeTT_cons_none hmt, removeTT_cons_none hcn,
          ih (show cs.length ≤ n by omega) hv, List.cons_append]

lemma removeTT_append_of_no_brace {l v : List Char} (hv : '\x7d' ∉ v) :
    removeTT (l ++ v) = removeTT l ++ v :=
  removeTT_append_brfree l.length (le_refl _) hv

lemma removeTT_buildText :
    ∀ {pieces : List (List Char × List Char)},
      (∀ pr ∈ pieces, '\\' ∉ pr.1 ∧ pr.2 ≠ [] ∧ '\x7d' ∉ pr.2) →
      ∀ {s : List Char}, hasMatch s = false →
        removeTT (buildText pieces s) = cleanText pieces s := by
  intro pieces
  induction pieces with
  | nil => intro _ s hs; exact removeTT_of_hasMatch_false hs
  | cons pr ps ih =>
    intro h s hs
    obtain ⟨p, X⟩ := pr
    obtain ⟨hp, hne, hnm⟩ := h (p, X) (List.mem_cons_self _ _)
    have hps : ∀ q ∈ ps, '\\' ∉ q.1 ∧ q.2 ≠ [] ∧ '\x7d' ∉ q.2 :=
      fun q hq => h q (List.mem_cons_of_mem _ hq)
    show removeTT (p ++ (ttMarker ++ (X ++ ('\x7d' :: buildText ps s)))) = p ++ (X ++ cleanText ps s)
    rw [removeTT_append_bsfree hp, removeTT_span hne hnm, ih hps hs]

lemma hasMatch_cleanText_false :
    ∀ {pieces : List (List Char × List Char)},
      (∀ pr ∈ pieces, '\\' ∉ pr.1 ∧ '\\' ∉ pr.2) →
      ∀ {s : List Char}, hasMatch s = false →
        hasMatch (cleanText pieces s) = false := by
  intro pieces
  induction pieces with
  | nil => intro _ s hs; exact hs
  | cons pr ps ih =>
    intro h s hs
    obtain ⟨p, X⟩ := pr
    obtain ⟨hp, hX⟩ := h (p, X) (List.mem_cons_self _ _)
    have hps : ∀ q ∈ ps, '\\' ∉ q.1 ∧ '\\' ∉ q.2 :=
      fun q hq => h q (List.mem_cons_of_mem _ hq)
    show hasMatch (p ++ (X ++ cleanText ps s)) = false
    rw [hasMatch_append_bsfree hp, hasMatch_append_bsfree hX, ih hps hs]

lemma removeTT_length_count :
    ∀ (n : Nat) {s : List Char}, s.length ≤ n →
      (removeTT s).length + 9 * countTT s = s.length := by
  intro n
  induction n with
  | zero =>
    intro s hn
    have hs : s = [] := List.length_eq_zero.mp (Nat.le_zero.mp hn)
    subst hs
    rfl
  | succ n ih =>
    intro s hn
    cases s with
    | nil => rfl
    | cons c cs =>
      cases hmt : matchTT (c :: cs) with
      | some pr =>
        obtain ⟨cap, rest⟩ := pr
        have hlen := matchTT_length hmt
        simp only [List.length_cons] at hn hlen
        have hrest := ih (show rest.length ≤ n by omega)
        rw [removeTT_eq_some hmt, countTT_eq_some hmt]
        simp only [List.length_append, List.length_cons]
        omega
      | none =>
        simp only [List.length_cons] at hn
        have hcs := ih (show cs.length ≤ n by omega)
        rw [removeTT_cons_none hmt, countTT_cons_none hmt]
        simp only [List.length_cons]
        omega

lemma lookupFile_writeFile_ne :
    ∀ (fs : List (String × String)) {q n : String}, q ≠ n → ∀ c,
      lookupFile (writeFile fs n c) q = lookupFile fs q := by
  intro fs
  induction fs with
  | nil =>
    intro q n hq c
    simp only [writeFile, lookupFile, if_neg (Ne.symm hq)]
  | cons pr fs ih =>
    intro q n hq c
    obtain ⟨m, d⟩ := pr
    by_cases hm : m = n
    · subst hm
      simp only [writeFile, if_pos rfl, lookupFile, if_neg (Ne.symm hq)]
    · simp only [writeFile, if_neg hm, lookupFile]
      by_cases hmq : m = q
      · rw [if_pos hmq, if_pos hmq]
      · rw [if_neg hmq, if_neg hmq, ih hq c]

/-- C1 counterexample: the claim quantifies X over all brace-free strings
including the empty string, but on the input backslash-texttt-openbrace-
closebrace (the span with empty X, prefix and suffix empty) the code
replaces nothing — the regex requires at least one character inside the
braces — so the output is the input itself, not the empty string the claim
demands. -/
theorem C1_counterexample :
    removeTT ([] ++ (ttMarker ++ ([] ++ ('\x7d' :: [])))) = ttMarker ++ ['\x7d'] ∧
      removeTT ([] ++ (ttMarker ++ ([] ++ ('\x7d' :: [])))) ≠ [] ++ ([] ++ []) := by
  decide

/-- C1 (amended): for every input of the shape p ++ backslash-texttt-openbrace
++ X ++ closebrace ++ s where the capture X is nonempty and contains no brace,
the preceding text p contains no backslash and the following text s contains
no match of the pattern, the output replaces exactly the marked-up span with X
and leaves every other character unchanged. -/
theorem C1_texttt_span_replaced (p X s : List Char) (hp : '\\' ∉ p) (hne : X ≠ [])
    (_hob : '\x7b' ∉ X) (hcb : '\x7d' ∉ X) (hs : hasMatch s = false) :
    removeTT (p ++ (ttMarker ++ (X ++ ('\x7d' :: s)))) = p ++ (X ++ s) := by
  rw [removeTT_append_bsfree hp, removeTT_span hne hcb, removeTT_of_hasMatch_false hs]

/-- C1 witness: concrete scenario 1 of the spec, input Use backslash-texttt-
openbrace-foo-closebrace here. -/
theorem C1_witness :
    removeTT ("Use ".toList ++ (ttMarker ++ ("foo".toList ++ ('\x7d' :: " here.".toList)))) =
      "Use ".toList ++ ("foo".toList ++ " here.".toList) :=
  C1_texttt_span_replaced _ _ _ (by decide) (by decide) (by decide) (by decide) (by decide)

/-- C2: on the nested input backslash-texttt-openbrace-a-backslash-texttt-
openbrace-b-closebrace-c-closebrace, the non-greedy match stops at the first
closing brace: the outer marker, the inner marker and the b are all captured,
yielding a-backslash-texttt-openbrace-b followed by the dangling fragment
c-closebrace, i.e. the string a-backslash-texttt-openbrace-b-c-closebrace. -/
theorem C2_nested_limitation :
    removeTT "\\texttt\x7ba\\texttt\x7bb\x7dc\x7d".toList = "a\\texttt\x7bbc\x7d".toList := by
  decide

/-- C3: on any input text with zero occurrences of the pattern, the
substitution is the identity. -/
theorem C3_identity_no_match (t : List Char) (h : hasMatch t = false) :
    removeTT t = t :=
  removeTT_of_hasMatch_false h

/-- C3 witness: concrete scenario 3 of the spec, input No markup here. -/
theorem C3_witness :
    hasMatch "No markup here.".toList = false ∧
      removeTT "No markup here.".toList = "No markup here.".toList :=
  ⟨by decide, C3_identity_no_match _ (by decide)⟩

/-- C4: on an input text decomposed into marked-up spans whose captures are
plain text (nonempty, no backslash, no braces) separated by backslash-free
literal text and followed by match-free trailing text, running the filter a
second time on the filter's output yields that same output again: the filter
is a no-op on already-cleaned text. -/
theorem C4_idempotent_on_clean (pieces : List (List Char × List Char)) (s : List Char)
    (h : ∀ pr ∈ pieces, '\\' ∉ pr.1 ∧ pr.2 ≠ [] ∧ '\\' ∉ pr.2 ∧ '\x7b' ∉ pr.2 ∧ '\x7d' ∉ pr.2)
    (hs : hasMatch s = false) :
    removeTT (removeTT (buildText pieces s)) = removeTT (buildText pieces s) := by
  have h1 : removeTT (buildText pieces s) = cleanText pieces s :=
    removeTT_buildText (fun pr hpr => ⟨(h pr hpr).1, (h pr hpr).2.1, (h pr hpr).2.2.2.2⟩) hs
  rw [h1]
  exact removeTT_of_hasMatch_false
    (hasMatch_cleanText_false (fun pr hpr => ⟨(h pr hpr).1, (h pr hpr).2.2.1⟩) hs)

/-- C4 witness: the cleaned form of concrete scenario 1, Use foo here.,
is a fixed point of the filter. -/
theorem C4_witness :
    removeTT (removeTT (buildText [("Use ".toList, "foo".toList)] " here.".toList)) =
      removeTT (buildText [("Use ".toList, "foo".toList)] " here.".toList) :=
  C4_idempotent_on_clean _ _ (by decide) (by decide)

/-- C5: on an input text decomposed into several marked-up spans with
nonempty brace-free captures, separated by backslash-free literal text and
followed by match-free trailing text, the matches are disjoint and the scan
replaces every one of them by its capture in a single left-to-right pass. -/
theorem C5_all_matches_replaced (pieces : List (List Char × List Char)) (s : List Char)
    (h : ∀ pr ∈ pieces, '\\' ∉ pr.1 ∧ pr.2 ≠ [] ∧ '\x7d' ∉ pr.2)
    (hs : hasMatch s = false) :
    removeTT (buildText pieces s) = cleanText pieces s :=
  removeTT_buildText h hs

/-- C5 witness: concrete scenario 2 of the spec, input A backslash-texttt-
openbrace-bar-closebrace and backslash-texttt-openbrace-baz-closebrace-dot,
whose built form is that very string and whose cleaned form is
A bar and baz-dot. -/
theorem C5_witness :
    buildText [("A ".toList, "bar".toList), (" and ".toList, "baz".toList)] ".".toList =
        "A \\texttt\x7bbar\x7d and \\texttt\x7bbaz\x7d.".toList ∧
      cleanText [("A ".toList, "bar".toList), (" and ".toList, "baz".toList)] ".".toList =
        "A bar and baz.".toList ∧
      removeTT (buildText [("A ".toList, "bar".toList), (" and ".toList, "baz".toList)]
          ".".toList) =
        cleanText [("A ".toList, "bar".toList), (" and ".toList, "baz".toList)] ".".toList :=
  ⟨by decide, by decide, C5_all_matches_replaced _ _ (by decide) (by decide)⟩

/-- C6: when a marker is never followed by a closing brace before the end of
the text, the whole tail from that marker on contains no match, and the scan
copies it to the output unchanged (while text before the marker is processed
as usual). -/
theorem C6_unclosed_marker_untouched (p u : List Char) (hu : '\x7d' ∉ u) :
    hasMatch (ttMarker ++ u) = false ∧
      removeTT (p ++ (ttMarker ++ u)) = removeTT p ++ (ttMarker ++ u) := by
  have hv : '\x7d' ∉ ttMarker ++ u := by
    simp only [List.mem_append, not_or]
    exact ⟨ttMarker_no_brace, hu⟩
  exact ⟨hasMatch_false_of_no_brace hv, removeTT_append_of_no_brace hv⟩

/-- C6 witness: a text whose prefix holds a well-formed span and whose tail
is a marker never closed; the prefix is cleaned, the tail survives as is. -/
theorem C6_witness :
    hasMatch (ttMarker ++ "never closed".toList) = false ∧
      removeTT ("See \\texttt\x7bok\x7d here. ".toList ++ (ttMarker ++ "never closed".toList)) =
        removeTT "See \\texttt\x7bok\x7d here. ".toList ++ (ttMarker ++ "never closed".toList) :=
  C6_unclosed_marker_untouched "See \\texttt\x7bok\x7d here. ".toList "never closed".toList
    (by decide)

/-- C7: when the input file is absent, the run fails (exit flag false, the
non-zero exit on the unhandled I/O error), performs no file operation, and
leaves the file system — in particular the output path — exactly as it was:
the error is raised before any write. -/
theorem C7_missing_input (fs : List (String × String)) (inName outName : String)
    (h : lookupFile fs inName = none) :
    runScript fs inName outName = (fs, [], false) ∧
      lookupFile (runScript fs inName outName).1 outName = lookupFile fs outName := by
  have hr : runScript fs inName outName = (fs, [], false) := by
    rw [runScript, h]
  exact ⟨hr, by rw [hr]⟩

/-- C7 witness: a file system holding only doc.tex, run on a missing input
path. -/
theorem C7_witness :
    runScript [("doc.tex", "x")] "missing.tex" "out.txt" = ([("doc.tex", "x")], [], false) ∧
      lookupFile (runScript [("doc.tex", "x")] "missing.tex" "out.txt").1 "out.txt" =
        lookupFile [("doc.tex", "x")] "out.txt" :=
  C7_missing_input _ _ _ (by decide)

/-- C8 counterexample: the claim says the input file is unchanged after every
run, but run with the same path for input and output the single write
truncates and overwrites the input file: on a file system holding f with
content backslash-texttt-openbrace-x-closebrace, running with input f and
output f leaves f holding x, not its original content. -/
theorem C8_counterexample :
    lookupFile (runScript [("f", "\\texttt\x7bx\x7d")] "f" "f").1 "f" = some "x" ∧
      lookupFile (runScript [("f", "\\texttt\x7bx\x7d")] "f" "f").1 "f" ≠
        lookupFile [("f", "\\texttt\x7bx\x7d")] "f" := by
  decide

/-- C8 (amended): provided the input path and the output path differ, the
input file's contents are unchanged after every run, successful or failed,
and a successful run performs exactly one file read (of the input) followed
by one file write (of the output). -/
theorem C8_frame (fs : List (String × String)) (inName outName : String)
    (hne : inName ≠ outName) :
    lookupFile (runScript fs inName outName).1 inName = lookupFile fs inName ∧
      ((runScript fs inName outName).2.2 = true →
        (runScript fs inName outName).2.1 = [FileOp.read inName, FileOp.write outName]) := by
  cases h : lookupFile fs inName with
  | none =>
    have hr : runScript fs inName outName = (fs, [], false) := by rw [runScript, h]
    rw [hr]
    refine ⟨?_, fun hc => by simp at hc⟩
    show lookupFile fs inName = none
    exact h
  | some orig =>
    have hr : runScript fs inName outName =
        (writeFile fs outName (stripTT orig), [FileOp.read inName, FileOp.write outName],
          true) := by
      rw [runScript, h]
    rw [hr]
    refine ⟨?_, fun _ => rfl⟩
    show lookupFile (writeFile fs outName (stripTT orig)) inName = some orig
    rw [lookupFile_writeFile_ne fs hne (stripTT orig)]
    exact h

/-- C8 witness: distinct input and output paths; the input keeps its markup
and the successful run's trace is one read then one write. -/
theorem C8_witness :
    lookupFile (runScript [("in.tex", "\\texttt\x7bx\x7d")] "in.tex" "out.tex").1 "in.tex" =
        lookupFile [("in.tex", "\\texttt\x7bx\x7d")] "in.tex" ∧
      ((runScript [("in.tex", "\\texttt\x7bx\x7d")] "in.tex" "out.tex").2.2 = true →
        (runScript [("in.tex", "\\texttt\x7bx\x7d")] "in.tex" "out.tex").2.1 =
          [FileOp.read "in.tex", FileOp.write "out.tex"]) :=
  C8_frame _ _ _ (by decide)

/-- C9: the pattern never matches at an occurrence of the marker immediately
followed by a closing brace (the regex requires at least one character inside
the braces), and a text consisting of such an empty occurrence between a
backslash-free prefix and a match-free suffix passes through the filter
unchanged: the nine literal characters remain in the output. -/
theorem C9_empty_texttt_not_replaced (p s : List Char) :
    matchTT (ttMarker ++ ('\x7d' :: s)) = none ∧
      ('\\' ∉ p → hasMatch s = false →
        removeTT (p ++ (ttMarker ++ ('\x7d' :: s))) = p ++ (ttMarker ++ ('\x7d' :: s))) := by
  have hm : matchTT (ttMarker ++ ('\x7d' :: s)) = none := by
    have hdrop : (ttMarker ++ ('\x7d' :: s)).drop 8 = '\x7d' :: s := by simp [ttMarker]
    rw [matchTT, if_pos (isPrefixOf_append_self _ _), hdrop]
    show (match splitAtBrace ('\x7d' :: s) with
      | some (cap, rest) => if cap.isEmpty then none else some (cap, rest)
      | none => none) = none
    rw [show splitAtBrace ('\x7d' :: s) = some ([], s) from by simp [splitAtBrace]]
    rfl
  refine ⟨hm, fun hp hs => ?_⟩
  apply removeTT_of_hasMatch_false
  rw [hasMatch_append_bsfree hp]
  show hasMatch ('\\' :: (['t', 'e', 'x', 't', 't', 't', '\x7b'] ++ ('\x7d' :: s))) = false
  rw [hasMatch_cons]
  have h1 : (matchTT ('\\' :: (['t', 'e', 'x', 't', 't', 't', '\x7b'] ++ ('\x7d' :: s)))).isSome
      = false := by
    rw [show ('\\' :: (['t', 'e', 'x', 't', 't', 't', '\x7b'] ++ ('\x7d' :: s)))
      = ttMarker ++ ('\x7d' :: s) from by simp [ttMarker], hm]
    rfl
  rw [h1, Bool.false_or, hasMatch_append_bsfree (by decide), hasMatch_cons,
    matchTT_none_of_head (by decide) s, hs]
  rfl

/-- C9 witness: the empty occurrence inside ordinary text survives intact. -/
theorem C9_witness :
    matchTT (ttMarker ++ ('\x7d' :: " done".toList)) = none ∧
      removeTT ("x: ".toList ++ (ttMarker ++ ('\x7d' :: " done".toList))) =
        "x: ".toList ++ (ttMarker ++ ('\x7d' :: " done".toList)) :=
  ⟨(C9_empty_texttt_not_replaced "x: ".toList " done".toList).1,
    (C9_empty_texttt_not_replaced "x: ".toList " done".toList).2 (by decide) (by decide)⟩

/-- C10: every replacement deletes exactly the eight marker characters and
the closing brace, so the output length is the input length minus nine times
the number of matches; in particular the output is never longer than the
input. -/
theorem C10_length_decrease (s : List Char) :
    (removeTT s).length = s.length - 9 * countTT s ∧ (removeTT s).length ≤ s.length := by
  have h := removeTT_length_count s.length (le_refl _)
  omega
